import Mathlib

/-!
Verification of the fast-map repository against its specification.

The repository has two source files under src/: `src/kernels/mod.rs`
(the capability traits `Backend` and `AutodiffBackend`) and
`src/chart.rs` (chart configuration and plotting helpers).  The kernel
implementation modules (`forward`, `backward`, `kernel`) are declared in
`mod.rs` but their files are not present, so the forward/backward
pairwise-distance kernels are modelled from the specification
(spec §4.2, §4.3); everything else is embedded from the source.
-/

namespace FastMap

/-! ## Embedding of src/kernels/mod.rs

A burn backend (the host framework's `burn::tensor::backend::Backend`
trait) is abstracted to the one piece of data the traits in `mod.rs`
use: the backend-native float tensor representation `FloatTensor<Self>`.
-/

structure BurnBackend : Type 1 where
  FloatTensor : Type

/-- Embedding of `trait Backend: burn::tensor::backend::Backend` from
src/kernels/mod.rs lines 9–11: the data a concrete backend must supply,
beyond the host framework's backend capability, is the single function
`euclidean_pairwise_distance` from the backend-native tensor
representation to itself.  The Rust trait body declares exactly this
function with no default body. -/
structure Backend (base : BurnBackend) : Type where
  euclidean_pairwise_distance : base.FloatTensor → base.FloatTensor

/-- Embedding of `trait AutodiffBackend: Backend +
burn::tensor::backend::AutodiffBackend {}` from src/kernels/mod.rs lines
14–16.  The host framework's differentiable-backend capability for the
given base backend is abstracted as an arbitrary type `cap` of
capability data; the trait body is empty, so an implementation consists
of the two supertrait implementations and nothing else. -/
structure AutodiffBackend (base : BurnBackend) (cap : Type) : Type where
  toBackend : Backend base
  toHostAutodiff : cap

/-! ## Model of the forward and backward kernels

The files `src/kernels/forward.rs`, `src/kernels/backward.rs` and
`src/kernels/kernel.rs` are declared in `mod.rs` but are not present
under src/, so the kernels are modelled from the specification.  A
`[N, D]` tensor is a function `Fin N → Fin D → ℚ` (rational entries
stand in for the machine floats; the output lives in `ℝ` because the
distance takes a square root). -/

/-- Modelled from the spec: the pre-square-root value of the Forward
Kernel (spec §4.2, the kernel sources are missing from src/): the direct
formulation `Σ_k (x[i,k] − x[j,k])²`, clamped to a minimum of 0 before
the square root is taken, as §4.2 requires of whichever formulation is
used. -/
def preSqrt {N D : ℕ} (x : Fin N → Fin D → ℚ) (i j : Fin N) : ℚ :=
  max 0 (∑ k, (x i k - x j k) ^ 2)

/-- Modelled from the spec: the Forward Kernel `euclidean_pairwise_distance`
(spec §4.2; `src/kernels/forward.rs` is missing from src/).  Input a
tensor of shape `[N, D]`, output the `[N, N]` tensor whose entry
`(i, j)` is the Euclidean distance between rows `i` and `j`, computed as
the square root of the clamped pre-square-root value. -/
noncomputable def euclidean_pairwise_distance {N D : ℕ}
    (x : Fin N → Fin D → ℚ) (i j : Fin N) : ℝ :=
  Real.sqrt ((preSqrt x i j : ℚ) : ℝ)

/-- Modelled from the spec: the gradient contribution of the ordered
pair `(i, j)` to row `i`, at coordinate `k` (spec §4.3;
`src/kernels/backward.rs` is missing from src/): `g(i,j) · (x_i − x_j) /
d(i,j)`, defined as zero in the degenerate case `d(i,j) = 0` rather
than dividing by a zero distance. -/
noncomputable def pairContrib {N D : ℕ} (x : Fin N → Fin D → ℚ)
    (g : Fin N → Fin N → ℝ) (i j : Fin N) (k : Fin D) : ℝ :=
  if euclidean_pairwise_distance x i j = 0 then 0
  else g i j * (((x i k : ℚ) : ℝ) - ((x j k : ℚ) : ℝ)) /
    euclidean_pairwise_distance x i j

/-- Modelled from the spec: the Backward Kernel (spec §4.3;
`src/kernels/backward.rs` is missing from src/).  The total gradient for
row `i` sums, over all `j ≠ i`, the contribution of the pair `(i, j)` to
row `i` and the (negated) contribution of the pair `(j, i)` to its
second row. -/
noncomputable def euclidean_pairwise_distance_backward {N D : ℕ}
    (x : Fin N → Fin D → ℚ) (g : Fin N → Fin N → ℝ)
    (i : Fin N) (k : Fin D) : ℝ :=
  ∑ j ∈ Finset.univ \ {i}, (pairContrib x g i j k - pairContrib x g j i k)

/-- The end-to-end example input of spec §8 item 8: `[[0,0],[3,4],[0,0]]`. -/
def exampleInput : Fin 3 → Fin 2 → ℚ := ![![0, 0], ![3, 4], ![0, 0]]

/-- The expected forward output of spec §8 item 8: `[[0,5,0],[5,0,5],[0,5,0]]`. -/
def expectedOutput : Fin 3 → Fin 3 → ℝ := ![![0, 5, 0], ![5, 0, 5], ![0, 5, 0]]

/-! ## Embedding of src/chart.rs -/

/-- The default caption for the chart (src/chart.rs line 6). -/
def CAPTION : String := "fast-umap"

/-- The default path where the plot will be saved (src/chart.rs line 9). -/
def PATH : String := "plot.png"

/-- Embedding of `struct ChartConfig` (src/chart.rs lines 13–18):
caption, path, width and height.  The `u32` pixel dimensions are
embedded as `Nat` (no arithmetic is performed on them, so overflow
cannot arise). -/
structure ChartConfig where
  caption : String
  path : String
  width : Nat
  height : Nat
deriving DecidableEq

/-- Embedding of `struct ChartConfigBuilder` (src/chart.rs lines
45–50): each field optional. -/
structure ChartConfigBuilder where
  caption : Option String
  path : Option String
  width : Option Nat
  height : Option Nat
deriving DecidableEq

/-- Embedding of `ChartConfig::builder` (src/chart.rs lines 22–29). -/
def ChartConfig.builder : ChartConfigBuilder :=
  ⟨some CAPTION, some PATH, some 1000, some 1000⟩

/-- Embedding of `impl Default for ChartConfig` (src/chart.rs lines 32–41). -/
def ChartConfig.default : ChartConfig := ⟨CAPTION, PATH, 1000, 1000⟩

/-- Embedding of `impl Default for ChartConfigBuilder` (src/chart.rs
lines 52–61): caption and path pre-set, width and height unset. -/
def ChartConfigBuilder.default : ChartConfigBuilder :=
  ⟨some CAPTION, some PATH, none, none⟩

/-- Embedding of `ChartConfigBuilder::build` (src/chart.rs lines
89–97): each unset field falls back to the fixed default
(`unwrap_or_else` / `unwrap_or` is `Option.getD`). -/
def ChartConfigBuilder.build (b : ChartConfigBuilder) : ChartConfig :=
  ⟨b.caption.getD CAPTION, b.path.getD PATH, b.width.getD 1000, b.height.getD 1000⟩

/-- Model of an `f64` coordinate as used by `chart_vector`: either an
ordinary (finite) numeric value, modelled by a rational, or NaN.
`partial_cmp` on two numeric values always succeeds; any comparison
involving NaN returns `None`. -/
inductive FP where
  | num (q : ℚ)
  | nan
deriving DecidableEq

/-- Model of `f64::partial_cmp` on `FP` values (the closure
`|a, b| a.partial_cmp(b).unwrap()` in `chart_vector` unwraps this). -/
def cmpFP : FP → FP → Option Ordering
  | FP.num a, FP.num b =>
    some (if a < b then Ordering.lt else if b < a then Ordering.gt else Ordering.eq)
  | _, _ => none

/-- The fold inside Rust's `Iterator::min_by` with a fallible
comparator: `none` models a panic of the unwrapped `partial_cmp`.  On a
tie or `Less` the accumulator (the earlier element) is kept, so the
first minimum is returned, as `min_by` documents. -/
def minByGo (acc : FP) : List FP → Option FP
  | [] => some acc
  | y :: ys =>
    match cmpFP acc y with
    | none => none
    | some Ordering.gt => minByGo y ys
    | some Ordering.lt => minByGo acc ys
    | some Ordering.eq => minByGo acc ys

/-- The fold inside Rust's `Iterator::max_by` with a fallible
comparator: on a tie the later element replaces the accumulator, so the
last maximum is returned, as `max_by` documents. -/
def maxByGo (acc : FP) : List FP → Option FP
  | [] => some acc
  | y :: ys =>
    match cmpFP acc y with
    | none => none
    | some Ordering.gt => maxByGo acc ys
    | some Ordering.lt => maxByGo y ys
    | some Ordering.eq => maxByGo y ys

/-- `iterator.min_by(|a, b| a.partial_cmp(b).unwrap())` followed by
`.unwrap()`: `none` models a panic, from an empty iterator or from an
incomparable pair. -/
def minByU : List FP → Option FP
  | [] => none
  | x :: xs => minByGo x xs

/-- `iterator.max_by(|a, b| a.partial_cmp(b).unwrap())` followed by
`.unwrap()`: `none` models a panic. -/
def maxByU : List FP → Option FP
  | [] => none
  | x :: xs => maxByGo x xs

/-- Splits a row into its even-index elements (`iter().step_by(2)`, the
x values) and its odd-index elements (`iter().skip(1).step_by(2)`, the
y values). -/
def splitParity : List FP → List FP × List FP
  | [] => ([], [])
  | x :: xs => ((splitParity xs).2.cons x, (splitParity xs).1)

/-- The flattened x values of the data
(`data.iter().flat_map(|v| v.iter().step_by(2))`). -/
def xsOf (data : List (List FP)) : List FP :=
  data.flatMap fun row => (splitParity row).1

/-- The flattened y values of the data
(`data.iter().flat_map(|v| v.iter().skip(1).step_by(2))`). -/
def ysOf (data : List (List FP)) : List FP :=
  data.flatMap fun row => (splitParity row).2

/-- The point `(values[0], values[1])` drawn for one row of the data in
`chart_vector`'s `draw_series` call; `none` models the index panic on a
row with fewer than 2 elements. -/
def pointOf (row : List FP) : Option (FP × FP) :=
  match row[0]?, row[1]? with
  | some a, some b => some (a, b)
  | _, _ => none

/-- All points drawn by `chart_vector`'s `draw_series` call. -/
def pointsOf : List (List FP) → Option (List (FP × FP))
  | [] => some []
  | row :: rest =>
    match pointOf row, pointsOf rest with
    | some p, some ps => some (p :: ps)
    | _, _ => none

/-- The partial pure core of `chart_vector` (src/chart.rs lines
124–199): the axis-range computation (min/max over x and y values, each
`.unwrap()`ed) followed by the point extraction of the drawing loop.
`none` models a panic; `some ((min_x, max_x), (min_y, max_y), points)`
models a run that reaches `root.present()`. -/
def chart_vector (data : List (List FP)) :
    Option ((FP × FP) × (FP × FP) × List (FP × FP)) :=
  match minByU (xsOf data), maxByU (xsOf data),
        minByU (ysOf data), maxByU (ysOf data), pointsOf data with
  | some min_x, some max_x, some min_y, some max_y, some pts =>
    some ((min_x, max_x), (min_y, max_y), pts)
  | _, _, _, _, _ => none

/-- An `FP` value is finite when it is an ordinary numeric value, not NaN. -/
def FP.finite (v : FP) : Prop := v ≠ FP.nan

/-- No value anywhere in the data is NaN (all coordinates pairwise
comparable). -/
def noNaN (data : List (List FP)) : Prop :=
  ∀ row ∈ data, ∀ v ∈ row, v ≠ FP.nan

/-- A degenerate input for the backward kernel: two identical rows. -/
def degX : Fin 2 → Fin 1 → ℚ := fun _ _ => 0

/-- An upstream gradient for the degenerate backward example. -/
def degG : Fin 2 → Fin 2 → ℝ := fun _ _ => 1

end FastMap

namespace FastMap

/-- C1: for every input tensor of shape [N, D], the forward
pairwise-distance output is symmetric: entry (i, j) equals entry (j, i)
for all indices i and j. -/
theorem forward_symmetric {N D : ℕ} (x : Fin N → Fin D → ℚ) (i j : Fin N) :
    euclidean_pairwise_distance x i j = euclidean_pairwise_distance x j i := by
  have h : preSqrt x i j = preSqrt x j i := by
    unfold preSqrt
    congr 1
    exact Finset.sum_congr rfl fun k _ => by ring
  unfold euclidean_pairwise_distance
  rw [h]

/-- C2: for every input tensor of shape [N, D], every diagonal entry
(i, i) of the forward pairwise-distance output is exactly 0. -/
theorem forward_diag_zero {N D : ℕ} (x : Fin N → Fin D → ℚ) (i : Fin N) :
    euclidean_pairwise_distance x i i = 0 := by
  have h : preSqrt x i i = 0 := by
    unfold preSqrt
    simp
  unfold euclidean_pairwise_distance
  rw [h]
  simp

/-- C3: for every input tensor of shape [N, D], every entry of the
forward pairwise-distance output is ≥ 0, and the pre-square-root value
is clamped to a minimum of 0 (so the square root is never taken of a
negative value and never produces NaN). -/
theorem forward_nonneg {N D : ℕ} (x : Fin N → Fin D → ℚ) (i j : Fin N) :
    0 ≤ euclidean_pairwise_distance x i j ∧ 0 ≤ preSqrt x i j :=
  ⟨Real.sqrt_nonneg _, le_max_left 0 _⟩

/-- C4: on the input [[0,0],[3,4],[0,0]] (N = 3, D = 2) the forward
pairwise-distance operator returns exactly [[0,5,0],[5,0,5],[0,5,0]]. -/
theorem forward_example :
    ∀ i j, euclidean_pairwise_distance exampleInput i j = expectedOutput i j := by
  have h25 : Real.sqrt 25 = 5 := by
    rw [show (25 : ℝ) = 5 ^ 2 by norm_num, Real.sqrt_sq (by norm_num : (0:ℝ) ≤ 5)]
  intro i j
  fin_cases i <;> fin_cases j <;>
    simp [euclidean_pairwise_distance, preSqrt, exampleInput, expectedOutput,
      Fin.sum_univ_two] <;>
    norm_num [h25]

/-- C5: when two distinct rows i ≠ j hold identical values, the
distance d(i, j) is 0, the Backward Kernel defines the gradient
contribution of that pair as zero in both orientations, and the total
gradient for row i is the (always-defined, real-valued) sum over the
remaining pairs — the degenerate case is absorbed, never an error. -/
theorem backward_degenerate_pair_zero {N D : ℕ} (x : Fin N → Fin D → ℚ)
    (g : Fin N → Fin N → ℝ) (i j : Fin N) (hij : i ≠ j)
    (hx : ∀ k, x i k = x j k) :
    euclidean_pairwise_distance x i j = 0 ∧
    (∀ k, pairContrib x g i j k = 0 ∧ pairContrib x g j i k = 0) ∧
    (∀ k, euclidean_pairwise_distance_backward x g i k =
      ∑ j' ∈ (Finset.univ \ {i}).erase j,
        (pairContrib x g i j' k - pairContrib x g j' i k)) := by
  have hpre : preSqrt x i j = 0 := by
    unfold preSqrt
    have : ∀ k ∈ Finset.univ, (x i k - x j k) ^ 2 = 0 := by
      intro k _
      rw [hx k]
      ring
    rw [Finset.sum_congr rfl this]
    simp
  have hpre' : preSqrt x j i = 0 := by
    unfold preSqrt
    have : ∀ k ∈ Finset.univ, (x j k - x i k) ^ 2 = 0 := by
      intro k _
      rw [hx k]
      ring
    rw [Finset.sum_congr rfl this]
    simp
  have hd : euclidean_pairwise_distance x i j = 0 := by
    unfold euclidean_pairwise_distance
    rw [hpre]
    simp
  have hd' : euclidean_pairwise_distance x j i = 0 := by
    unfold euclidean_pairwise_distance
    rw [hpre']
    simp
  have hcontrib : ∀ k, pairContrib x g i j k = 0 ∧ pairContrib x g j i k = 0 := by
    intro k
    constructor
    · unfold pairContrib
      rw [if_pos hd]
    · unfold pairContrib
      rw [if_pos hd']
  refine ⟨hd, hcontrib, fun k => ?_⟩
  unfold euclidean_pairwise_distance_backward
  refine (Finset.sum_erase _ ?_).symm
  rw [(hcontrib k).1, (hcontrib k).2]
  ring

/-- Witness for C5 at x = [[0], [0]] (two identical rows), g ≡ 1,
i = 0, j = 1, k = 0. -/
theorem backward_degenerate_pair_zero_witness :
    euclidean_pairwise_distance degX 0 1 = 0 ∧
    pairContrib degX degG 0 1 0 = 0 ∧ pairContrib degX degG 1 0 0 = 0 :=
  ⟨(backward_degenerate_pair_zero degX degG 0 1 (by decide) fun _ => rfl).1,
   ((backward_degenerate_pair_zero degX degG 0 1 (by decide) fun _ => rfl).2.1 0).1,
   ((backward_degenerate_pair_zero degX degG 0 1 (by decide) fun _ => rfl).2.1 0).2⟩

/-- C6: an implementation of the capability trait `Backend`, beyond the
host framework's backend capability, consists of exactly one required
function — from the backend-native tensor representation to itself —
and nothing else; every such function determines exactly one
implementation (so there is no default and no further requirement). -/
theorem backend_single_required_fn (base : BurnBackend) :
    Function.Bijective
      (fun b : Backend base => b.euclidean_pairwise_distance) := by
  constructor
  · rintro ⟨f⟩ ⟨g⟩ h
    simpa using h
  · intro f
    exact ⟨⟨f⟩, rfl⟩

/-- C7: an implementation of `AutodiffBackend` for a backend consists
of exactly an implementation of the operator's `Backend` trait together
with the host framework's differentiable-backend capability, and adds
no further required functions. -/
theorem autodiff_backend_supertraits_only (base : BurnBackend) (cap : Type) :
    Function.Bijective
      (fun a : AutodiffBackend base cap => (a.toBackend, a.toHostAutodiff)) := by
  constructor
  · rintro ⟨b₁, c₁⟩ ⟨b₂, c₂⟩ h
    simpa using h
  · rintro ⟨b, c⟩
    exact ⟨⟨b, c⟩, rfl⟩

/-- C8: the chart configuration object consists of exactly the four
options caption (title text), path (output file location) and
width/height (pixel dimensions), and nothing else: projecting onto
those four fields is a bijection. -/
theorem chart_config_exactly_four_options :
    Function.Bijective
      (fun c : ChartConfig => (c.caption, c.path, c.width, c.height)) := by
  constructor
  · rintro ⟨a, b, c, d⟩ ⟨a', b', c', d'⟩ h
    simpa using h
  · rintro ⟨a, b, c, d⟩
    exact ⟨⟨a, b, c, d⟩, rfl⟩

/-- C9: `build` replaces each unset (None) field by the fixed default
(caption "fast-umap", path "plot.png", width 1000, height 1000) and
keeps each set field's value; in particular both
`ChartConfig::builder().build()` and
`ChartConfigBuilder::default().build()` equal `ChartConfig::default()`. -/
theorem builder_build_defaults :
    (∀ b : ChartConfigBuilder,
      (b.caption = none → b.build.caption = CAPTION) ∧
      (∀ v, b.caption = some v → b.build.caption = v) ∧
      (b.path = none → b.build.path = PATH) ∧
      (∀ v, b.path = some v → b.build.path = v) ∧
      (b.width = none → b.build.width = 1000) ∧
      (∀ v, b.width = some v → b.build.width = v) ∧
      (b.height = none → b.build.height = 1000) ∧
      (∀ v, b.height = some v → b.build.height = v)) ∧
    ChartConfig.builder.build = ChartConfig.default ∧
    ChartConfigBuilder.default.build = ChartConfig.default := by
  refine ⟨fun b => ?_, rfl, rfl⟩
  refine ⟨?_, ?_, ?_, ?_, ?_, ?_, ?_, ?_⟩ <;>
    first
      | (intro h; simp [ChartConfigBuilder.build, h])
      | (intro v h; simp [ChartConfigBuilder.build, h])

/-- Witness for C9 at the builder {caption: None, path: Some "out.png",
width: Some 640, height: None}. -/
theorem builder_build_defaults_witness :
    (ChartConfigBuilder.mk none (some "out.png") (some 640) none).build.caption = CAPTION ∧
    (ChartConfigBuilder.mk none (some "out.png") (some 640) none).build.path = "out.png" ∧
    (ChartConfigBuilder.mk none (some "out.png") (some 640) none).build.width = 640 ∧
    (ChartConfigBuilder.mk none (some "out.png") (some 640) none).build.height = 1000 :=
  ⟨(builder_build_defaults.1 (ChartConfigBuilder.mk none (some "out.png") (some 640) none)).1 rfl,
   (builder_build_defaults.1 (ChartConfigBuilder.mk none (some "out.png") (some 640) none)).2.2.2.1
     "out.png" rfl,
   (builder_build_defaults.1 (ChartConfigBuilder.mk none (some "out.png") (some 640) none)).2.2.2.2.2.1
     640 rfl,
   (builder_build_defaults.1 (ChartConfigBuilder.mk none (some "out.png") (some 640) none)).2.2.2.2.2.2.1
     rfl⟩

/-! ### Helper lemmas for the `chart_vector` analysis -/

theorem cmpFP_eq_some {a b : FP} {o : Ordering} (h : cmpFP a b = some o) :
    a ≠ FP.nan ∧ b ≠ FP.nan := by
  cases a <;> cases b <;> simp_all [cmpFP]

theorem cmpFP_isSome {a b : FP} (ha : a ≠ FP.nan) (hb : b ≠ FP.nan) :
    ∃ o, cmpFP a b = some o := by
  cases a with
  | nan => exact absurd rfl ha
  | num qa =>
    cases b with
    | nan => exact absurd rfl hb
    | num qb => exact ⟨_, rfl⟩

theorem minByGo_noNaN (l : List FP) :
    ∀ acc : FP, acc ≠ FP.nan → (∀ y ∈ l, y ≠ FP.nan) →
      ∃ v, minByGo acc l = some v ∧ v ≠ FP.nan := by
  induction l with
  | nil => exact fun acc hacc _ => ⟨acc, rfl, hacc⟩
  | cons y ys ih =>
    intro acc hacc hl
    have hy : y ≠ FP.nan := hl y (List.mem_cons_self y ys)
    have hys : ∀ z ∈ ys, z ≠ FP.nan := fun z hz => hl z (List.mem_cons_of_mem _ hz)
    obtain ⟨o, ho⟩ := cmpFP_isSome hacc hy
    cases o with
    | lt =>
      obtain ⟨v, hv, hvn⟩ := ih acc hacc hys
      exact ⟨v, by rw [minByGo, ho]; exact hv, hvn⟩
    | eq =>
      obtain ⟨v, hv, hvn⟩ := ih acc hacc hys
      exact ⟨v, by rw [minByGo, ho]; exact hv, hvn⟩
    | gt =>
      obtain ⟨v, hv, hvn⟩ := ih y hy hys
      exact ⟨v, by rw [minByGo, ho]; exact hv, hvn⟩

theorem maxByGo_noNaN (l : List FP) :
    ∀ acc : FP, acc ≠ FP.nan → (∀ y ∈ l, y ≠ FP.nan) →
      ∃ v, maxByGo acc l = some v ∧ v ≠ FP.nan := by
  induction l with
  | nil => exact fun acc hacc _ => ⟨acc, rfl, hacc⟩
  | cons y ys ih =>
    intro acc hacc hl
    have hy : y ≠ FP.nan := hl y (List.mem_cons_self y ys)
    have hys : ∀ z ∈ ys, z ≠ FP.nan := fun z hz => hl z (List.mem_cons_of_mem _ hz)
    obtain ⟨o, ho⟩ := cmpFP_isSome hacc hy
    cases o with
    | lt =>
      obtain ⟨v, hv, hvn⟩ := ih y hy hys
      exact ⟨v, by rw [maxByGo, ho]; exact hv, hvn⟩
    | eq =>
      obtain ⟨v, hv, hvn⟩ := ih y hy hys
      exact ⟨v, by rw [maxByGo, ho]; exact hv, hvn⟩
    | gt =>
      obtain ⟨v, hv, hvn⟩ := ih acc hacc hys
      exact ⟨v, by rw [maxByGo, ho]; exact hv, hvn⟩

theorem minByGo_some_noNaN (l : List FP) :
    ∀ acc v : FP, minByGo acc l = some v → v ≠ FP.nan →
      acc ≠ FP.nan ∧ ∀ y ∈ l, y ≠ FP.nan := by
  induction l with
  | nil =>
    intro acc v h hv
    rw [minByGo] at h
    obtain rfl : acc = v := Option.some.inj h
    exact ⟨hv, by simp⟩
  | cons y ys ih =>
    intro acc v h hv
    cases ho : cmpFP acc y with
    | none => rw [minByGo, ho] at h; cases h
    | some o =>
      obtain ⟨hacc, hy⟩ := cmpFP_eq_some ho
      have step : ∀ acc', minByGo acc' ys = some v →
          ∀ z ∈ y :: ys, z ≠ FP.nan := by
        intro acc' h' z hz
        rcases List.mem_cons.mp hz with rfl | hz'
        · exact hy
        · exact (ih acc' v h' hv).2 z hz'
      cases o with
      | lt => rw [minByGo, ho] at h; exact ⟨hacc, step acc h⟩
      | eq => rw [minByGo, ho] at h; exact ⟨hacc, step acc h⟩
      | gt => rw [minByGo, ho] at h; exact ⟨hacc, step y h⟩

theorem minByU_noNaN {l : List FP} (hne : l ≠ []) (hl : ∀ y ∈ l, y ≠ FP.nan) :
    ∃ v, minByU l = some v ∧ v ≠ FP.nan := by
  cases l with
  | nil => exact absurd rfl hne
  | cons x xs =>
    exact minByGo_noNaN xs x (hl x (List.mem_cons_self _ _))
      fun z hz => hl z (List.mem_cons_of_mem _ hz)

theorem maxByU_noNaN {l : List FP} (hne : l ≠ []) (hl : ∀ y ∈ l, y ≠ FP.nan) :
    ∃ v, maxByU l = some v ∧ v ≠ FP.nan := by
  cases l with
  | nil => exact absurd rfl hne
  | cons x xs =>
    exact maxByGo_noNaN xs x (hl x (List.mem_cons_self _ _))
      fun z hz => hl z (List.mem_cons_of_mem _ hz)

theorem minByU_some_noNaN {l : List FP} {v : FP} (h : minByU l = some v)
    (hv : v ≠ FP.nan) : ∀ u ∈ l, u ≠ FP.nan := by
  cases l with
  | nil => simp [minByU] at h
  | cons x xs =>
    have hx := minByGo_some_noNaN xs x v h hv
    intro u hu
    rcases List.mem_cons.mp hu with rfl | hu'
    · exact hx.1
    · exact hx.2 u hu'

theorem pointOf_of_two {row : List FP} (h : 2 ≤ row.length) :
    ∃ p, pointOf row = some p := by
  cases row with
  | nil => simp at h
  | cons a t =>
    cases t with
    | nil => simp at h
    | cons b t' => exact ⟨(a, b), by simp [pointOf]⟩

theorem pointOf_two {row : List FP} {p : FP × FP} (h : pointOf row = some p) :
    2 ≤ row.length := by
  cases row with
  | nil => simp [pointOf] at h
  | cons a t =>
    cases t with
    | nil => simp [pointOf] at h
    | cons b t' => simp

theorem pointsOf_of_rows (data : List (List FP))
    (h : ∀ row ∈ data, 2 ≤ row.length) : ∃ ps, pointsOf data = some ps := by
  induction data with
  | nil => exact ⟨[], rfl⟩
  | cons row rest ih =>
    obtain ⟨p, hp⟩ := pointOf_of_two (h row (List.mem_cons_self _ _))
    obtain ⟨ps, hps⟩ := ih fun r hr => h r (List.mem_cons_of_mem _ hr)
    exact ⟨p :: ps, by rw [pointsOf, hp, hps]⟩

theorem pointsOf_rows (data : List (List FP)) (ps : List (FP × FP))
    (h : pointsOf data = some ps) : ∀ row ∈ data, 2 ≤ row.length := by
  induction data generalizing ps with
  | nil => simp
  | cons row rest ih =>
    intro r hr
    cases hp : pointOf row with
    | none => rw [pointsOf, hp] at h; cases h
    | some p =>
      cases hps : pointsOf rest with
      | none => rw [pointsOf, hp, hps] at h; cases h
      | some ps' =>
        rcases List.mem_cons.mp hr with rfl | hr'
        · exact pointOf_two hp
        · exact ih ps' hps r hr'

theorem splitParity_subset (row : List FP) :
    (∀ v ∈ (splitParity row).1, v ∈ row) ∧
    (∀ v ∈ (splitParity row).2, v ∈ row) := by
  induction row with
  | nil => simp [splitParity]
  | cons x xs ih =>
    constructor
    · intro v hv
      simp only [splitParity, List.cons.injEq] at hv
      rcases List.mem_cons.mp hv with rfl | hv'
      · exact List.mem_cons_self _ _
      · exact List.mem_cons_of_mem _ (ih.2 v hv')
    · intro v hv
      simp only [splitParity] at hv
      exact List.mem_cons_of_mem _ (ih.1 v hv)

theorem mem_splitParity (row : List FP) :
    ∀ v ∈ row, v ∈ (splitParity row).1 ∨ v ∈ (splitParity row).2 := by
  induction row with
  | nil => simp
  | cons x xs ih =>
    intro v hv
    rcases List.mem_cons.mp hv with rfl | hv'
    · left
      simp only [splitParity]
      exact List.mem_cons_self _ _
    · rcases ih v hv' with h1 | h2
      · right
        simpa only [splitParity] using h1
      · left
        simp only [splitParity]
        exact List.mem_cons_of_mem _ h2

theorem xsOf_mem {data : List (List FP)} {row : List FP} {v : FP}
    (hrow : row ∈ data) (hv : v ∈ (splitParity row).1) : v ∈ xsOf data := by
  simp only [xsOf, List.mem_flatMap]
  exact ⟨row, hrow, hv⟩

theorem ysOf_mem {data : List (List FP)} {row : List FP} {v : FP}
    (hrow : row ∈ data) (hv : v ∈ (splitParity row).2) : v ∈ ysOf data := by
  simp only [ysOf, List.mem_flatMap]
  exact ⟨row, hrow, hv⟩

theorem mem_xsOf {data : List (List FP)} {v : FP} (h : v ∈ xsOf data) :
    ∃ row ∈ data, v ∈ (splitParity row).1 := by
  simpa only [xsOf, List.mem_flatMap] using h

theorem mem_ysOf {data : List (List FP)} {v : FP} (h : v ∈ ysOf data) :
    ∃ row ∈ data, v ∈ (splitParity row).2 := by
  simpa only [ysOf, List.mem_flatMap] using h

theorem chart_vector_eq (data : List (List FP)) (mnx mxx mny mxy : FP)
    (pts : List (FP × FP))
    (h1 : minByU (xsOf data) = some mnx) (h2 : maxByU (xsOf data) = some mxx)
    (h3 : minByU (ysOf data) = some mny) (h4 : maxByU (ysOf data) = some mxy)
    (h5 : pointsOf data = some pts) :
    chart_vector data = some ((mnx, mxx), (mny, mxy), pts) := by
  unfold chart_vector
  rw [h1, h2, h3, h4, h5]

theorem chart_vector_some {data : List (List FP)} {mnx mxx mny mxy : FP}
    {pts : List (FP × FP)}
    (h : chart_vector data = some ((mnx, mxx), (mny, mxy), pts)) :
    minByU (xsOf data) = some mnx ∧ maxByU (xsOf data) = some mxx ∧
    minByU (ysOf data) = some mny ∧ maxByU (ysOf data) = some mxy ∧
    pointsOf data = some pts := by
  unfold chart_vector at h
  cases h1 : minByU (xsOf data) <;> rw [h1] at h
  case none => cases h
  case some a =>
  cases h2 : maxByU (xsOf data) <;> rw [h2] at h
  case none => cases h
  case some b =>
  cases h3 : minByU (ysOf data) <;> rw [h3] at h
  case none => cases h
  case some c =>
  cases h4 : maxByU (ysOf data) <;> rw [h4] at h
  case none => cases h
  case some d =>
  cases h5 : pointsOf data <;> rw [h5] at h
  case none => cases h
  case some ps =>
  obtain ⟨⟨rfl, rfl⟩, ⟨rfl, rfl⟩, rfl⟩ :
      (a = mnx ∧ b = mxx) ∧ (c = mny ∧ d = mxy) ∧ ps = pts := by
    have := Option.some.inj h
    simp only [Prod.mk.injEq] at this
    exact ⟨⟨this.1.1, this.1.2⟩, ⟨this.2.1.1, this.2.1.2⟩, this.2.2⟩
  exact ⟨rfl, rfl, rfl, rfl, rfl⟩

/-- C10: `chart_vector` is partial at its public interface.  (1) It
panics (the model returns `none`) whenever the data is empty or some
row has fewer than 2 coordinates.  (2) Under the precondition that the
data is non-empty, every row has at least 2 elements and no coordinate
is NaN, it succeeds and the computed axis ranges are finite.  (3) It
succeeds with finite axis ranges only under that precondition. -/
theorem chart_vector_partiality :
    (∀ data : List (List FP),
      data = [] ∨ (∃ row ∈ data, row.length < 2) → chart_vector data = none) ∧
    (∀ data : List (List FP), data ≠ [] → (∀ row ∈ data, 2 ≤ row.length) →
      noNaN data →
      ∃ mnx mxx mny mxy pts,
        chart_vector data = some ((mnx, mxx), (mny, mxy), pts) ∧
        mnx.finite ∧ mxx.finite ∧ mny.finite ∧ mxy.finite) ∧
    (∀ (data : List (List FP)) (mnx mxx mny mxy : FP) (pts : List (FP × FP)),
      chart_vector data = some ((mnx, mxx), (mny, mxy), pts) →
      mnx.finite → mxx.finite → mny.finite → mxy.finite →
      data ≠ [] ∧ (∀ row ∈ data, 2 ≤ row.length) ∧ noNaN data) := by
  refine ⟨?_, ?_, ?_⟩
  · -- (1) panic on empty data or a short row
    intro data h
    cases hc : chart_vector data with
    | none => rfl
    | some r =>
      exfalso
      obtain ⟨⟨mnx, mxx⟩, ⟨mny, mxy⟩, pts⟩ := r
      obtain ⟨hx1, _, _, _, hx5⟩ := chart_vector_some hc
      rcases h with rfl | ⟨row, hrow, hshort⟩
      · simp [xsOf, minByU] at hx1
      · have := pointsOf_rows data pts hx5 row hrow
        omega
  · -- (2) success with finite ranges under the precondition
    intro data hne hrows hnan
    have hxsnan : ∀ v ∈ xsOf data, v ≠ FP.nan := by
      intro v hv
      obtain ⟨row, hrow, hmem⟩ := mem_xsOf hv
      exact hnan row hrow v ((splitParity_subset row).1 v hmem)
    have hysnan : ∀ v ∈ ysOf data, v ≠ FP.nan := by
      intro v hv
      obtain ⟨row, hrow, hmem⟩ := mem_ysOf hv
      exact hnan row hrow v ((splitParity_subset row).2 v hmem)
    obtain ⟨r0, rest, rfl⟩ := List.exists_cons_of_ne_nil hne
    have hr0 : 2 ≤ r0.length := hrows r0 (List.mem_cons_self _ _)
    obtain ⟨a, b, t, rfl⟩ : ∃ a b t, r0 = a :: b :: t := by
      cases r0 with
      | nil => simp at hr0
      | cons a t0 =>
        cases t0 with
        | nil => simp at hr0
        | cons b t => exact ⟨a, b, t, rfl⟩
    have hamem : a ∈ (splitParity (a :: b :: t)).1 := by
      show a ∈ a :: (splitParity (b :: t)).2
      exact List.mem_cons_self _ _
    have hbmem : b ∈ (splitParity (a :: b :: t)).2 := by
      show b ∈ (splitParity (b :: t)).1
      show b ∈ b :: (splitParity t).2
      exact List.mem_cons_self _ _
    have hxne : xsOf ((a :: b :: t) :: rest) ≠ [] :=
      List.ne_nil_of_mem (xsOf_mem (List.mem_cons_self _ _) hamem)
    have hyne : ysOf ((a :: b :: t) :: rest) ≠ [] :=
      List.ne_nil_of_mem (ysOf_mem (List.mem_cons_self _ _) hbmem)
    obtain ⟨mnx, h1, h1n⟩ := minByU_noNaN hxne hxsnan
    obtain ⟨mxx, h2, h2n⟩ := maxByU_noNaN hxne hxsnan
    obtain ⟨mny, h3, h3n⟩ := minByU_noNaN hyne hysnan
    obtain ⟨mxy, h4, h4n⟩ := maxByU_noNaN hyne hysnan
    obtain ⟨pts, h5⟩ := pointsOf_of_rows _ hrows
    exact ⟨mnx, mxx, mny, mxy, pts,
      chart_vector_eq _ _ _ _ _ _ h1 h2 h3 h4 h5, h1n, h2n, h3n, h4n⟩
  · -- (3) the precondition is necessary for success with finite ranges
    intro data mnx mxx mny mxy pts hc hf1 _ hf3 _
    obtain ⟨hx1, _, hx3, _, hx5⟩ := chart_vector_some hc
    have hxs : ∀ u ∈ xsOf data, u ≠ FP.nan := minByU_some_noNaN hx1 hf1
    have hys : ∀ u ∈ ysOf data, u ≠ FP.nan := minByU_some_noNaN hx3 hf3
    refine ⟨?_, pointsOf_rows data pts hx5, ?_⟩
    · rintro rfl
      simp [xsOf, minByU] at hx1
    · intro row hrow v hv
      rcases mem_splitParity row v hv with h | h
      · exact hxs v (xsOf_mem hrow h)
      · exact hys v (ysOf_mem hrow h)

/-- Witness for C10: part (1) applied at the empty data, and part (3)
applied at the single-row data [[1, 0]], whose run succeeds with the
ranges (1, 1) and (0, 0) and the single point (1, 0). -/
theorem chart_vector_partiality_witness :
    chart_vector [] = none ∧ noNaN [[FP.num 1, FP.num 0]] :=
  ⟨chart_vector_partiality.1 [] (Or.inl rfl),
   (chart_vector_partiality.2.2 [[FP.num 1, FP.num 0]]
      (FP.num 1) (FP.num 1) (FP.num 0) (FP.num 0) [(FP.num 1, FP.num 0)]
      (by simp [chart_vector, minByU, maxByU, minByGo, maxByGo, xsOf, ysOf,
        splitParity, pointsOf, pointOf])
      (by simp [FP.finite]) (by simp [FP.finite]) (by simp [FP.finite])
      (by simp [FP.finite])).2.2⟩

end FastMap
